/-
Verification of the tpath query engine and calendar window evaluator.

This file gives a shallow embedding, in Lean 4, of the parts of the tpath
repository that the verified claims refer to:

  * src/tpath/_cal.py        (normalize_weekday, class Cal: win_minutes,
                              win_hours, win_days, win_weeks, win_months,
                              win_quarters, win_years)
  * src/tpath/_time.py       (class Time: _get_stat, timestamp, datetime)
  * src/tpath/pquery/_pquery.py  (PQuery._iter_files, PQuery._matches_query,
                              default application, where, take, order_by,
                              paginate, files)

Python datetimes are modelled by a record of integer fields; datetime
arithmetic goes through the proleptic Gregorian day-number conversion
(the standard civil-from-days / days-from-civil algorithms), matching
the behaviour of Python's datetime/timedelta for valid field values.
Machine floats do not occur in the verified logic: the timestamps the
claims are about are compared exactly, so integers model them.
-/

import Mathlib

namespace TPath

/-! ## Character and string helpers for normalize_weekday (src/tpath/_cal.py)

Python strings are modelled as lists of characters.  str.lower is modelled
on the ASCII letters (day specifications are ASCII); str.strip strips the
ASCII whitespace characters. -/

/-- Whitespace test used by the model of Python str.strip. -/
def isSpc (c : Char) : Bool :=
  c = ' ' || c = '\t' || c = '\n' || c = '\x0d' || c = '\x0b' || c = '\x0c'

/-- ASCII lower-casing of one character, modelling str.lower on the
day-specification alphabet. -/
def lowerChar (c : Char) : Char :=
  match c with
  | 'A' => 'a' | 'B' => 'b' | 'C' => 'c' | 'D' => 'd' | 'E' => 'e'
  | 'F' => 'f' | 'G' => 'g' | 'H' => 'h' | 'I' => 'i' | 'J' => 'j'
  | 'K' => 'k' | 'L' => 'l' | 'M' => 'm' | 'N' => 'n' | 'O' => 'o'
  | 'P' => 'p' | 'Q' => 'q' | 'R' => 'r' | 'S' => 's' | 'T' => 't'
  | 'U' => 'u' | 'V' => 'v' | 'W' => 'w' | 'X' => 'x' | 'Y' => 'y'
  | 'Z' => 'z'
  | c => c

/-- Model of Python str.lower on a character list. -/
def lowerL (s : List Char) : List Char := s.map lowerChar

/-- Right-strip: removes trailing whitespace. -/
def rstripL : List Char → List Char
  | [] => []
  | c :: cs =>
    match rstripL cs with
    | [] => if isSpc c then [] else [c]
    | r => c :: r

/-- Model of Python str.strip: drop leading whitespace, then trailing. -/
def stripL (s : List Char) : List Char := rstripL (s.dropWhile isSpc)

/-- Full day names table from normalize_weekday. -/
def dayNames : List (List Char × Int) :=
  [("monday".toList, 0), ("tuesday".toList, 1), ("wednesday".toList, 2),
   ("thursday".toList, 3), ("friday".toList, 4), ("saturday".toList, 5),
   ("sunday".toList, 6)]

/-- Three-letter abbreviation table from normalize_weekday. -/
def dayAbbrev3 : List (List Char × Int) :=
  [("mon".toList, 0), ("tue".toList, 1), ("wed".toList, 2), ("thu".toList, 3),
   ("fri".toList, 4), ("sat".toList, 5), ("sun".toList, 6)]

/-- Two-letter abbreviation table from normalize_weekday. -/
def dayAbbrev2 : List (List Char × Int) :=
  [("mo".toList, 0), ("tu".toList, 1), ("we".toList, 2), ("th".toList, 3),
   ("fr".toList, 4), ("sa".toList, 5), ("su".toList, 6)]

/-- First-match lookup over an association table, modelling the sequential
membership tests of normalize_weekday. -/
def lookupDay (k : List Char) : List (List Char × Int) → Option Int
  | [] => none
  | (k', v) :: rest => if k = k' then some v else lookupDay k rest

/-- The three tables checked in order by normalize_weekday. -/
def dayTables : List (List Char × Int) := dayNames ++ dayAbbrev3 ++ dayAbbrev2

/-- Removal of one leading pandas-style "w-" prefix, as in
normalize_weekday. -/
def stripWPre (t : List Char) : List Char :=
  match t with
  | 'w' :: '-' :: rest => rest
  | other => other

/-- Model of normalize_weekday (src/tpath/_cal.py lines 15-75): lower-case
and strip the specification, remove one leading "w-" prefix, then look the
result up in the three tables in order.  Returns none where the Python code
raises ValueError. -/
def normalize_weekday (s : List Char) : Option Int :=
  lookupDay (stripWPre (stripL (lowerL s))) dayTables

/-! ## Datetime model

A Python datetime is a record of integer fields (year, month, day, hour,
minute, second, microsecond).  Python compares datetimes field-
lexicographically; timedelta addition is modelled by converting to a count
of microseconds since 1970-01-01 00:00:00 via the proleptic Gregorian
civil-calendar conversion, adding, and converting back. -/

structure DT where
  year : Int
  month : Int
  day : Int
  hour : Int
  minute : Int
  second : Int
  microsecond : Int
deriving DecidableEq, Repr

/-- Days from 1970-01-01 to the given civil date (proleptic Gregorian),
the standard days-from-civil algorithm in floor-division form. -/
def daysFromCivil (y m d : Int) : Int :=
  let y := if m ≤ 2 then y - 1 else y
  let era := Int.fdiv y 400
  let yoe := y - era * 400
  let doy := Int.fdiv (153 * (m + (if m > 2 then -3 else 9)) + 2) 5 + d - 1
  let doe := yoe * 365 + Int.fdiv yoe 4 - Int.fdiv yoe 100 + doy
  era * 146097 + doe - 719468

/-- Civil date (year, month, day) of the given day count from 1970-01-01,
the standard civil-from-days algorithm in floor-division form. -/
def civilFromDays (z : Int) : Int × Int × Int :=
  let z := z + 719468
  let era := Int.fdiv z 146097
  let doe := z - era * 146097
  let yoe := Int.fdiv (doe - Int.fdiv doe 1460 + Int.fdiv doe 36524 - Int.fdiv doe 146096) 365
  let y := yoe + era * 400
  let doy := doe - (365 * yoe + Int.fdiv yoe 4 - Int.fdiv yoe 100)
  let mp := Int.fdiv (5 * doy + 2) 153
  let d := doy - Int.fdiv (153 * mp + 2) 5 + 1
  let m := mp + (if mp < 10 then 3 else -9)
  (if m ≤ 2 then y + 1 else y, m, d)

def usecPerSecond : Int := 1000000
def usecPerMinute : Int := 60 * usecPerSecond
def usecPerHour : Int := 60 * usecPerMinute
def usecPerDay : Int := 24 * usecPerHour

/-- Microseconds from 1970-01-01 00:00:00 to the datetime. -/
def DT.toMicro (t : DT) : Int :=
  daysFromCivil t.year t.month t.day * usecPerDay
    + t.hour * usecPerHour + t.minute * usecPerMinute
    + t.second * usecPerSecond + t.microsecond

/-- Datetime of the given count of microseconds from 1970-01-01 00:00:00. -/
def DT.ofMicro (u : Int) : DT :=
  let days := Int.fdiv u usecPerDay
  let rem := u - days * usecPerDay
  let ymd := civilFromDays days
  { year := ymd.1, month := ymd.2.1, day := ymd.2.2
    hour := Int.fdiv rem usecPerHour
    minute := Int.fdiv (Int.emod rem usecPerHour) usecPerMinute
    second := Int.fdiv (Int.emod rem usecPerMinute) usecPerSecond
    microsecond := Int.emod rem usecPerSecond }

/-- Model of datetime + timedelta(microseconds = u). -/
def DT.addMicro (t : DT) (u : Int) : DT := DT.ofMicro (t.toMicro + u)

/-- Python datetime strict comparison (field-lexicographic). -/
def DT.ltb (a b : DT) : Bool :=
  if a.year ≠ b.year then a.year < b.year
  else if a.month ≠ b.month then a.month < b.month
  else if a.day ≠ b.day then a.day < b.day
  else if a.hour ≠ b.hour then a.hour < b.hour
  else if a.minute ≠ b.minute then a.minute < b.minute
  else if a.second ≠ b.second then a.second < b.second
  else a.microsecond < b.microsecond

/-- Python datetime non-strict comparison (total, so the negation of the
reversed strict comparison). -/
def DT.leb (a b : DT) : Bool := !(DT.ltb b a)

/-- Date part of a datetime, as the (year, month, day) triple; Python date
objects compare field-lexicographically. -/
def DT.dateOf (t : DT) : Int × Int × Int := (t.year, t.month, t.day)

/-- Strict comparison of (year, month, day) date triples. -/
def dateLtb (a b : Int × Int × Int) : Bool :=
  if a.1 ≠ b.1 then a.1 < b.1
  else if a.2.1 ≠ b.2.1 then a.2.1 < b.2.1
  else a.2.2 < b.2.2

/-- Non-strict comparison of date triples. -/
def dateLeb (a b : Int × Int × Int) : Bool := !(dateLtb b a)

/-- Shift of a date triple by a signed number of days, modelling
date + timedelta(days = n). -/
def dateAddDays (a : Int × Int × Int) (n : Int) : Int × Int × Int :=
  civilFromDays (daysFromCivil a.1 a.2.1 a.2.2 + n)

/-- Python date.weekday (Monday = 0): 1970-01-01 was a Thursday. -/
def dateWeekday (a : Int × Int × Int) : Int :=
  Int.emod (daysFromCivil a.1 a.2.1 a.2.2 + 3) 7

/-! ## Calendar window evaluator (class Cal, src/tpath/_cal.py)

Every win_* method first defaults a missing end offset to the start
offset, then swaps the pair when start > end.  The Cal object holds a
Time object; the two datetimes a window test reads from it are
self.time.base_time (the reference) and self.time.datetime (the file
time), so the window functions here take those two datetimes directly. -/

/-- Normalization shared by all win_* methods: when start > end the two
offsets are swapped. -/
def sortPair (a b : Int) : Int × Int := if a > b then (b, a) else (a, b)

/-- Borrow loop of win_months: while month <= 0, add 12 months and step the
year back. -/
def monthBorrow (m y : Int) : Int × Int :=
  if m ≤ 0 then monthBorrow (m + 12) (y - 1) else (m, y)
termination_by (1 - m).toNat
decreasing_by simp_wf; omega

/-- Carry loop of win_months: while month > 12, drop 12 months and step the
year forward. -/
def monthCarry (m y : Int) : Int × Int :=
  if m > 12 then monthCarry (m - 12) (y + 1) else (m, y)
termination_by (m - 12).toNat
decreasing_by simp_wf; omega

/-- Borrow loop of win_quarters: while quarter <= 0, add 4 quarters and step
the year back. -/
def quarterBorrow (q y : Int) : Int × Int :=
  if q ≤ 0 then quarterBorrow (q + 4) (y - 1) else (q, y)
termination_by (1 - q).toNat
decreasing_by simp_wf; omega

/-- Carry loop of win_quarters: while quarter > 4, drop 4 quarters and step
the year forward. -/
def quarterCarry (q y : Int) : Int × Int :=
  if q > 4 then quarterCarry (q - 4) (y + 1) else (q, y)
termination_by (q - 4).toNat
decreasing_by simp_wf; omega

/-- Model of Cal.win_minutes: truncate reference+start down to its minute,
truncate reference+end down to its minute and add one minute (exclusive
upper bound). -/
def win_minutes (base file : DT) (start : Int) (end_ : Option Int) : Bool :=
  match sortPair start (end_.getD start) with
  | (s, e) =>
    let startTime := base.addMicro (s * usecPerMinute)
    let startMinute : DT := { startTime with second := 0, microsecond := 0 }
    let endTime := base.addMicro (e * usecPerMinute)
    let endMinute : DT :=
      ({ endTime with second := 0, microsecond := 0 } : DT).addMicro usecPerMinute
    DT.leb startMinute file && DT.ltb file endMinute

/-- Model of Cal.win_hours: like win_minutes at hour granularity. -/
def win_hours (base file : DT) (start : Int) (end_ : Option Int) : Bool :=
  match sortPair start (end_.getD start) with
  | (s, e) =>
    let startTime := base.addMicro (s * usecPerHour)
    let startHour : DT := { startTime with minute := 0, second := 0, microsecond := 0 }
    let endTime := base.addMicro (e * usecPerHour)
    let endHour : DT :=
      ({ endTime with minute := 0, second := 0, microsecond := 0 } : DT).addMicro usecPerHour
    DT.leb startHour file && DT.ltb file endHour

/-- Model of Cal.win_days: compare calendar dates, inclusive on both ends. -/
def win_days (base file : DT) (start : Int) (end_ : Option Int) : Bool :=
  match sortPair start (end_.getD start) with
  | (s, e) =>
    let fileDate := file.dateOf
    let startDate := (base.addMicro (s * usecPerDay)).dateOf
    let endDate := (base.addMicro (e * usecPerDay)).dateOf
    dateLeb startDate fileDate && dateLeb fileDate endDate

/-- Model of Cal.win_months: signed month offsets applied to the reference
(year, month) with the explicit borrow and carry loops, then inclusive
comparison of year*12+month linear indices. -/
def win_months (base file : DT) (start : Int) (end_ : Option Int) : Bool :=
  match sortPair start (end_.getD start) with
  | (s, e) =>
    let sp := monthBorrow (base.month + s) base.year
    let sp := monthCarry sp.1 sp.2
    let ep := monthBorrow (base.month + e) base.year
    let ep := monthCarry ep.1 ep.2
    let fileIdx := file.year * 12 + file.month
    decide (sp.2 * 12 + sp.1 ≤ fileIdx ∧ fileIdx ≤ ep.2 * 12 + ep.1)

/-- Model of Cal.win_quarters: same technique with year*4+quarter indices,
quarter = (month-1)//3 + 1. -/
def win_quarters (base file : DT) (start : Int) (end_ : Option Int) : Bool :=
  match sortPair start (end_.getD start) with
  | (s, e) =>
    let currentQuarter := Int.fdiv (base.month - 1) 3 + 1
    let sp := quarterBorrow (currentQuarter + s) base.year
    let sp := quarterCarry sp.1 sp.2
    let ep := quarterBorrow (currentQuarter + e) base.year
    let ep := quarterCarry ep.1 ep.2
    let fileQuarter := Int.fdiv (file.month - 1) 3 + 1
    let fileIdx := file.year * 4 + fileQuarter
    decide (sp.2 * 4 + sp.1 ≤ fileIdx ∧ fileIdx ≤ ep.2 * 4 + ep.1)

/-- Model of Cal.win_years: inclusive comparison of the bare year. -/
def win_years (base file : DT) (start : Int) (end_ : Option Int) : Bool :=
  match sortPair start (end_.getD start) with
  | (s, e) =>
    decide (base.year + s ≤ file.year ∧ file.year ≤ base.year + e)

/-- Model of Cal.win_weeks: week-start normalization through
normalize_weekday (none models the ValueError), then inclusive date
comparison from the start week start to the end week start plus six
days. -/
def win_weeks (base file : DT) (start : Int) (end_ : Option Int)
    (week_start : List Char) : Option Bool :=
  match sortPair start (end_.getD start) with
  | (s, e) =>
    match normalize_weekday week_start with
    | none => none
    | some wsd =>
      let fileDate := file.dateOf
      let baseDate := base.dateOf
      let daysSince := Int.emod (dateWeekday baseDate - wsd) 7
      let currentWeekStart := dateAddDays baseDate (-daysSince)
      let startWeekStart := dateAddDays currentWeekStart (7 * s)
      let endWeekStart := dateAddDays currentWeekStart (7 * e)
      let endWeekEnd := dateAddDays endWeekStart 6
      some (dateLeb startWeekStart fileDate && dateLeb fileDate endWeekEnd)

theorem sortPair_comm (a b : Int) : sortPair a b = sortPair b a := by
  unfold sortPair
  split_ifs <;> simp_all [Prod.ext_iff] <;> omega

theorem win_minutes_comm (base file : DT) (a b : Int) :
    win_minutes base file a (some b) = win_minutes base file b (some a) := by
  unfold win_minutes
  simp only [Option.getD_some]
  simp only [sortPair_comm a b]

theorem win_hours_comm (base file : DT) (a b : Int) :
    win_hours base file a (some b) = win_hours base file b (some a) := by
  unfold win_hours
  simp only [Option.getD_some]
  simp only [sortPair_comm a b]

theorem win_days_comm (base file : DT) (a b : Int) :
    win_days base file a (some b) = win_days base file b (some a) := by
  unfold win_days
  simp only [Option.getD_some]
  simp only [sortPair_comm a b]

theorem win_months_comm (base file : DT) (a b : Int) :
    win_months base file a (some b) = win_months base file b (some a) := by
  unfold win_months
  simp only [Option.getD_some]
  simp only [sortPair_comm a b]

theorem win_quarters_comm (base file : DT) (a b : Int) :
    win_quarters base file a (some b) = win_quarters base file b (some a) := by
  unfold win_quarters
  simp only [Option.getD_some]
  simp only [sortPair_comm a b]

theorem win_years_comm (base file : DT) (a b : Int) :
    win_years base file a (some b) = win_years base file b (some a) := by
  unfold win_years
  simp only [Option.getD_some]
  simp only [sortPair_comm a b]

theorem win_weeks_comm (base file : DT) (a b : Int) (ws : List Char) :
    win_weeks base file a (some b) ws = win_weeks base file b (some a) ws := by
  unfold win_weeks
  simp only [Option.getD_some]
  simp only [sortPair_comm a b]

/-- C3: for every calendar-window granularity (minute, hour, day, week,
month, quarter, year), every pair of integer offsets a and b, every
reference time base and every target time file, evaluating the window with
arguments (a, b) returns the same boolean as with (b, a). -/
theorem claim_C3_window_commutative (base file : DT) (a b : Int) (ws : List Char) :
    win_minutes base file a (some b) = win_minutes base file b (some a) ∧
    win_hours base file a (some b) = win_hours base file b (some a) ∧
    win_days base file a (some b) = win_days base file b (some a) ∧
    win_weeks base file a (some b) ws = win_weeks base file b (some a) ws ∧
    win_months base file a (some b) = win_months base file b (some a) ∧
    win_quarters base file a (some b) = win_quarters base file b (some a) ∧
    win_years base file a (some b) = win_years base file b (some a) :=
  ⟨win_minutes_comm base file a b, win_hours_comm base file a b,
   win_days_comm base file a b, win_weeks_comm base file a b ws,
   win_months_comm base file a b, win_quarters_comm base file a b,
   win_years_comm base file a b⟩

theorem monthBorrow_of_pos (m y : Int) (h : 0 < m) : monthBorrow m y = (m, y) := by
  rw [monthBorrow]
  simp [show ¬ m ≤ 0 by omega]

theorem monthBorrow_zero (y : Int) : monthBorrow 0 y = (12, y - 1) := by
  rw [monthBorrow]
  norm_num
  exact monthBorrow_of_pos 12 (y - 1) (by norm_num)

theorem monthCarry_of_le (m y : Int) (h : m ≤ 12) : monthCarry m y = (m, y) := by
  rw [monthCarry]
  simp [show ¬ m > 12 by omega]

/-- C8: for every reference time whose month is January and every target
time (with a valid month field), the month window with offsets (-1, -1)
holds exactly when the target lies in December of the year before the
reference year: the borrow loop resolves month 0 to month 12 of the prior
year. -/
theorem claim_C8_january_borrow (base file : DT) (hbm : base.month = 1)
    (hf1 : 1 ≤ file.month) (hf2 : file.month ≤ 12) :
    win_months base file (-1) (some (-1)) = true ↔
      file.month = 12 ∧ file.year = base.year - 1 := by
  unfold win_months
  simp only [Option.getD_some, hbm]
  have hsp : sortPair (-1) (-1) = (-1, -1) := rfl
  rw [hsp]
  norm_num [monthBorrow_zero, monthCarry_of_le]
  omega

/-- Witness for C8 at a concrete reference (2024-01-15) and target
(2023-12-03). -/
theorem claim_C8_january_borrow_witness :
    let base : DT := ⟨2024, 1, 15, 0, 0, 0, 0⟩
    let file : DT := ⟨2023, 12, 3, 12, 30, 0, 0⟩
    win_months base file (-1) (some (-1)) = true ∧ base.month = 1 := by
  refine ⟨?_, rfl⟩
  exact (claim_C8_january_borrow ⟨2024, 1, 15, 0, 0, 0, 0⟩ ⟨2023, 12, 3, 12, 30, 0, 0⟩
    rfl (by norm_num) (by norm_num)).mpr ⟨rfl, rfl⟩

/-! ## Properties of normalize_weekday (claim C10) -/

theorem isSpc_lowerChar (c : Char) : isSpc (lowerChar c) = isSpc c := by
  unfold lowerChar
  split <;> rfl

theorem lookupDay_mem {k : List Char} {v : Int} :
    ∀ {tbl : List (List Char × Int)}, lookupDay k tbl = some v → (k, v) ∈ tbl := by
  intro tbl
  induction tbl with
  | nil => intro h; simp [lookupDay] at h
  | cons p rest ih =>
    obtain ⟨k1, v1⟩ := p
    intro h
    by_cases hk : k = k1
    · subst hk
      simp only [lookupDay, if_pos rfl] at h
      injection h with hv
      subst hv
      exact List.mem_cons_self _ _
    · simp only [lookupDay, if_neg hk] at h
      exact List.mem_cons_of_mem _ (ih h)

theorem mem_dayTables_stripWPre {k : List Char} {v : Int} (h : (k, v) ∈ dayTables) :
    stripWPre k = k := by
  fin_cases h <;> rfl

theorem rstripL_cons_of_not_spc {c : Char} (h : isSpc c = false) (l : List Char) :
    rstripL (c :: l) = c :: rstripL l := by
  cases hr : rstripL l with
  | nil => simp [rstripL, hr, h]
  | cons x xs => simp [rstripL, hr]

theorem dropWhile_isSpc_lowerL {s : List Char} (h : s.dropWhile isSpc = s) :
    (lowerL s).dropWhile isSpc = lowerL s := by
  cases s with
  | nil => rfl
  | cons c cs =>
    have hc : ¬ isSpc c := by
      have := List.dropWhile_eq_self_iff.mp h (by simp)
      simpa using this
    have hc' : isSpc (lowerChar c) = false := by
      rw [isSpc_lowerChar]
      simpa using hc
    simp only [lowerL, List.map_cons, List.dropWhile_cons, hc']
    simp

/-- C10 (amended): the weekday normalizer strips one leading "w-" prefix
before the table lookup, so for every specification s without leading
whitespace whose lower-cased, stripped form is directly a key of the lookup
tables, both s and "w-" followed by s are accepted and map to the same
weekday number; moreover every accepted string (with or without prefix
stripping) maps to an integer in 0..6. -/
theorem claim_C10_prefix_amended (s : List Char) (d : Int)
    (hnl : s.dropWhile isSpc = s)
    (hlk : lookupDay (stripL (lowerL s)) dayTables = some d) :
    normalize_weekday s = some d ∧
    normalize_weekday ('w' :: '-' :: s) = some d ∧
    (∀ (s' : List Char) (d' : Int), normalize_weekday s' = some d' →
      0 ≤ d' ∧ d' ≤ 6) := by
  have hbound : ∀ (s' : List Char) (d' : Int), normalize_weekday s' = some d' →
      0 ≤ d' ∧ d' ≤ 6 := by
    intro s' d' h
    have hm := lookupDay_mem (k := stripWPre (stripL (lowerL s'))) (v := d') h
    have hall : ∀ p ∈ dayTables, 0 ≤ p.2 ∧ p.2 ≤ 6 := by decide
    exact hall _ hm
  have hshape : stripWPre (stripL (lowerL s)) = stripL (lowerL s) :=
    mem_dayTables_stripWPre (lookupDay_mem hlk)
  refine ⟨?_, ?_, hbound⟩
  · unfold normalize_weekday
    rw [hshape, hlk]
  · unfold normalize_weekday
    have hl : lowerL ('w' :: '-' :: s) = 'w' :: '-' :: lowerL s := rfl
    have hd : ('w' :: '-' :: lowerL s).dropWhile isSpc = 'w' :: '-' :: lowerL s := by
      simp [List.dropWhile_cons, isSpc]
    have hds : (lowerL s).dropWhile isSpc = lowerL s := dropWhile_isSpc_lowerL hnl
    have hstrip : stripL (lowerL ('w' :: '-' :: s)) = 'w' :: '-' :: rstripL (lowerL s) := by
      rw [hl]
      unfold stripL
      rw [hd, rstripL_cons_of_not_spc (by rfl), rstripL_cons_of_not_spc (by rfl)]
    rw [hstrip]
    have hs2 : stripL (lowerL s) = rstripL (lowerL s) := by
      unfold stripL
      rw [hds]
    rw [show stripWPre ('w' :: '-' :: rstripL (lowerL s)) = rstripL (lowerL s) from rfl,
      ← hs2, hlk]

/-- Witness for C10 at s = "mon". -/
theorem claim_C10_prefix_amended_witness :
    normalize_weekday "mon".toList = some 0 ∧
    normalize_weekday "w-mon".toList = some 0 := by
  have h := claim_C10_prefix_amended "mon".toList 0 (by decide) (by decide)
  exact ⟨h.1, h.2.1⟩

/-- C10 counterexample: the string "w-mon" is accepted by the normalizer
(the prefix is stripped once), but prefixing it again with "w-" yields
"w-w-mon", which is rejected: the claim that every accepted s stays
accepted under a "w-" prefix is false. -/
theorem claim_C10_counterexample :
    normalize_weekday "w-mon".toList = some 0 ∧
    normalize_weekday "w-w-mon".toList = none := by decide

/-! ## Time view model (class Time, src/tpath/_time.py, claim C9)

The path collaborator is modelled by its observable surface: whether
exists() holds, the optional _cached_stat attribute, and the optional
result of stat().  Stat timestamps are exact numbers (integers in the
model).  datetime.fromtimestamp renders a timestamp in local time; the
rendering is a parameter of the derived-datetime model. -/

structure StatResult where
  st_ctime : Int
  st_mtime : Int
  st_atime : Int
deriving DecidableEq, Repr

structure PathObj where
  pathExists : Bool
  cachedStat : Option StatResult
  statResult : Option StatResult
deriving DecidableEq, Repr

inductive TimeKind where
  | ctime | mtime | atime
deriving DecidableEq, Repr

/-- Model of a Time view: a path, a normalized time kind and the immutable
reference time. -/
structure Time where
  path : PathObj
  timeKind : TimeKind
  baseTime : DT

/-- Model of Time._get_stat: prefer the cached snapshot, else stat() when
the path exists, else None. -/
def getStat (p : PathObj) : Option StatResult :=
  match p.cachedStat with
  | some s => some s
  | none => if p.pathExists then p.statResult else none

/-- Model of Time.timestamp: 0 for a nonexistent path, 0 for a missing
stat, else the field selected by the time kind. -/
def Time.timestamp (t : Time) : Int :=
  if !t.path.pathExists then 0
  else
    match getStat t.path with
    | none => 0
    | some st =>
      match t.timeKind with
      | .ctime => st.st_ctime
      | .mtime => st.st_mtime
      | .atime => st.st_atime

/-- Model of Time.datetime: the local-time rendering (fromts) of the raw
timestamp. -/
def Time.datetimeOf (fromts : Int → DT) (t : Time) : DT := fromts t.timestamp

/-- C9: for every time view whose path does not exist and carries no cached
stat snapshot, the raw timestamp is 0 (no error), and the derived datetime
is the local-time rendering of the Unix epoch, so calendar-window
predicates on such a view compare against the epoch. -/
theorem claim_C9_timestamp_zero (fromts : Int → DT) (t : Time)
    (hne : t.path.pathExists = false) (hnc : t.path.cachedStat = none) :
    t.timestamp = 0 ∧ t.datetimeOf fromts = fromts 0 := by
  have h : t.timestamp = 0 := by
    unfold Time.timestamp
    rw [hne]
    rfl
  exact ⟨h, by unfold Time.datetimeOf; rw [h]⟩

/-- Witness for C9 at a concrete nonexistent path. -/
theorem claim_C9_timestamp_zero_witness :
    let t : Time := ⟨⟨false, none, none⟩, .mtime, ⟨2024, 1, 1, 0, 0, 0, 0⟩⟩
    t.timestamp = 0 ∧ t.datetimeOf DT.ofMicro = DT.ofMicro 0 :=
  claim_C9_timestamp_zero DT.ofMicro ⟨⟨false, none, none⟩, .mtime, ⟨2024, 1, 1, 0, 0, 0, 0⟩⟩
    rfl rfl

/-! ## Traversal engine model (PQuery._iter_files, src/tpath/pquery/_pquery.py)

The filesystem reachable from the starting points is modelled as a forest
of entries: regular files (identified by their path string) and
directories listing their entries in scandir order.  Symlinks are not
followed by the traversal (follow_symlinks=False), so the forest shape is
all the walk observes.

The predicate passed to _matches_query may raise; exceptions are modelled
by Except.  The per-entry try in _iter_files catches exactly OSError and
PermissionError: those are recorded in the stats and the entry is skipped
(or re-raised when continue_on_exc is false); any other exception is not
caught and propagates out of the generator.  A run therefore produces the
list of yields delivered to the consumer plus an optional exception that
ended the traversal. -/

inductive Entry where
  | file (name : String)
  | dir (name : String) (entries : List Entry)
deriving Repr

/-- Exceptions a caller-supplied predicate may raise, split by whether the
per-entry except clause of _iter_files catches them. -/
inductive PyErr where
  | osError
  | permissionError
  | otherError
deriving DecidableEq, Repr

/-- The exception classes named by the except clauses of _iter_files. -/
def catchable : PyErr → Bool
  | .osError => true
  | .permissionError => true
  | .otherError => false

def Entry.isFile : Entry → Bool
  | .file _ => true
  | .dir _ _ => false

def Entry.isDir : Entry → Bool
  | .file _ => false
  | .dir _ _ => true

def Entry.children : Entry → List Entry
  | .file _ => []
  | .dir _ cs => cs

mutual

def entSize : Entry → Nat
  | .file _ => 1
  | .dir _ cs => 1 + entsSize cs

def entsSize : List Entry → Nat
  | [] => 0
  | e :: es => entSize e + entsSize es

end

/-- One scandir pass of _iter_files over the entries of a directory:
regular files are tested against the predicate and yielded on a match,
subdirectories are collected (in discovery order) when recursive; a raised
predicate exception is caught and the entry skipped exactly when it is an
OSError or PermissionError and continue_on_exc holds, otherwise it aborts
the pass. -/
def scanEntries (pred : String → Except PyErr Bool) (recursive cont : Bool) :
    List Entry → List String × List Entry × Option PyErr
  | [] => ([], [], none)
  | .file n :: es =>
    match pred n with
    | .ok true =>
      let r := scanEntries pred recursive cont es
      (n :: r.1, r.2.1, r.2.2)
    | .ok false => scanEntries pred recursive cont es
    | .error ex =>
      if catchable ex && cont then scanEntries pred recursive cont es
      else ([], [], some ex)
  | .dir n cs :: es =>
    let r := scanEntries pred recursive cont es
    (r.1, (if recursive then [Entry.dir n cs] else []) ++ r.2.1, r.2.2)

theorem entsSize_append (a b : List Entry) :
    entsSize (a ++ b) = entsSize a + entsSize b := by
  induction a with
  | nil => simp [entsSize]
  | cons e es ih => simp [entsSize, ih]; omega

theorem entsSize_reverse (a : List Entry) : entsSize a.reverse = entsSize a := by
  induction a with
  | nil => rfl
  | cons e es ih =>
    simp [entsSize, List.reverse_cons, entsSize_append, ih]
    omega

theorem scanEntries_dirs_size_le (pred : String → Except PyErr Bool)
    (recursive cont : Bool) (l : List Entry) :
    entsSize (scanEntries pred recursive cont l).2.1 ≤ entsSize l := by
  induction l with
  | nil => simp [scanEntries, entsSize]
  | cons e es ih =>
    cases e with
    | file n =>
      cases hp : pred n with
      | ok b =>
        cases b <;> simp only [scanEntries, hp] <;>
          simp [entsSize] <;> omega
      | error ex =>
        by_cases hc : (catchable ex && cont) = true <;>
          simp only [scanEntries, hp] <;> simp [hc, entsSize] <;> omega
    | dir n cs =>
      simp only [scanEntries, entsSize_append, entsSize, entSize]
      cases recursive <;> simp [entsSize, entSize] <;> omega

/-- Stack loop of _iter_files for one directory root: pop the most recently
pushed directory, scan it, yield its file matches, then push its
subdirectories (so the stack top is the last-discovered directory).  An
uncaught exception aborts the walk, delivering the yields produced so
far. -/
def stackWalkE (pred : String → Except PyErr Bool) (recursive cont : Bool) :
    List Entry → List String × Option PyErr
  | [] => ([], none)
  | .file _ :: rest => stackWalkE pred recursive cont rest
  | .dir _ cs :: rest =>
    let r := scanEntries pred recursive cont cs
    match r.2.2 with
    | some ex => (r.1, some ex)
    | none =>
      let r2 := stackWalkE pred recursive cont (r.2.1.reverse ++ rest)
      (r.1 ++ r2.1, r2.2)
termination_by stack => entsSize stack
decreasing_by
  · simp only [entsSize, entSize]
    omega
  · have h := scanEntries_dirs_size_le pred recursive cont cs
    simp only [entsSize_append, entsSize_reverse, entsSize, entSize]
    omega

/-- Model of PQuery._iter_files: for each root in order, a nonexistent
root is skipped (nonexistent roots are not represented in the forest), a
file root is tested directly under the same per-entry exception policy,
and a directory root is walked with the explicit stack. -/
def iter_files (pred : String → Except PyErr Bool) (recursive cont : Bool) :
    List Entry → List String × Option PyErr
  | [] => ([], none)
  | .file n :: rest =>
    match pred n with
    | .ok true =>
      let r := iter_files pred recursive cont rest
      (n :: r.1, r.2)
    | .ok false => iter_files pred recursive cont rest
    | .error ex =>
      if catchable ex && cont then iter_files pred recursive cont rest
      else ([], some ex)
  | .dir n cs :: rest =>
    let r := stackWalkE pred recursive cont [Entry.dir n cs]
    match r.2 with
    | some ex => (r.1, some ex)
    | none =>
      let r2 := iter_files pred recursive cont rest
      (r.1 ++ r2.1, r2.2)

/-- Predicate lifting for runs whose predicate raises no exception. -/
def okPred (pred : String → Bool) : String → Except PyErr Bool :=
  fun n => .ok (pred n)

/-- Boolean view of a raising predicate: a raised exception counts as a
non-match (the entry is skipped). -/
def predOk (pred : String → Except PyErr Bool) : String → Bool :=
  fun n =>
    match pred n with
    | .ok b => b
    | .error _ => false

/-- Traversal with a pure predicate in the default continue-on-error mode:
the yielded matches. -/
def iterFilesP (pred : String → Bool) (recursive : Bool) (roots : List Entry) :
    List String :=
  (iter_files (okPred pred) recursive true roots).1

/-- Matching files of one directory listing, in scandir order. -/
def filesOf (pred : String → Bool) (l : List Entry) : List String :=
  l.filterMap fun e =>
    match e with
    | .file n => if pred n then some n else none
    | .dir _ _ => none

/-- Subdirectories of one directory listing, in discovery order. -/
def dirsOnly (l : List Entry) : List Entry := l.filter Entry.isDir

theorem entSize_pos (e : Entry) : 1 ≤ entSize e := by
  cases e <;> simp [entSize]

theorem entsSize_filter_le (p : Entry → Bool) (l : List Entry) :
    entsSize (l.filter p) ≤ entsSize l := by
  induction l with
  | nil => simp
  | cons e es ih =>
    rw [List.filter_cons]
    by_cases hp : p e = true
    · simp only [hp, if_pos rfl, entsSize]
      omega
    · simp only [hp]
      simp only [Bool.false_eq_true, if_false, entsSize]
      omega

/-- Yields of the stack walk for a predicate that raises nothing: file
matches of the popped directory first, then the walk continuing with the
discovered subdirectories pushed on the stack. -/
def walkP (pred : String → Bool) (recursive : Bool) : List Entry → List String
  | [] => []
  | .file _ :: rest => walkP pred recursive rest
  | .dir _ cs :: rest =>
    filesOf pred cs ++
      walkP pred recursive ((if recursive then dirsOnly cs else []).reverse ++ rest)
termination_by stack => entsSize stack
decreasing_by
  · simp only [entsSize, entSize]
    omega
  · have h := entsSize_filter_le Entry.isDir cs
    simp only [entsSize_append, entsSize_reverse, entsSize, entSize, dirsOnly]
    cases recursive <;> simp [entsSize] <;> omega

/-- Yields of the whole traversal for a predicate that raises nothing. -/
def iterP (pred : String → Bool) (recursive : Bool) : List Entry → List String
  | [] => []
  | .file n :: rest => (if pred n then [n] else []) ++ iterP pred recursive rest
  | .dir n cs :: rest => walkP pred recursive [Entry.dir n cs] ++ iterP pred recursive rest

theorem scanEntries_catchable (pred : String → Except PyErr Bool) (rec : Bool)
    (h : ∀ n ex, pred n = .error ex → catchable ex = true) (l : List Entry) :
    scanEntries pred rec true l
      = (filesOf (predOk pred) l, if rec then dirsOnly l else [], none) := by
  induction l with
  | nil => cases rec <;> simp [scanEntries, filesOf, dirsOnly]
  | cons e es ih =>
    cases e with
    | file n =>
      cases hp : pred n with
      | ok b =>
        cases b <;> simp only [scanEntries, hp, ih] <;> cases rec <;>
          simp [filesOf, predOk, hp, dirsOnly, List.filter_cons, Entry.isDir]
      | error ex =>
        have hc := h n ex hp
        simp only [scanEntries, hp, hc, Bool.true_and, if_pos rfl, ih]
        cases rec <;>
          simp [filesOf, predOk, hp, dirsOnly, List.filter_cons, Entry.isDir]
    | dir n cs =>
      simp only [scanEntries, ih]
      cases rec <;> simp [filesOf, dirsOnly, Entry.isDir, List.filter_cons]

theorem stackWalkE_catchable (pred : String → Except PyErr Bool) (rec : Bool)
    (h : ∀ n ex, pred n = .error ex → catchable ex = true) :
    ∀ (k : Nat) (stack : List Entry), entsSize stack ≤ k →
      stackWalkE pred rec true stack = (walkP (predOk pred) rec stack, none) := by
  intro k
  induction k with
  | zero =>
    intro stack hs
    cases stack with
    | nil => simp [stackWalkE, walkP]
    | cons e rest =>
      exfalso
      have := entSize_pos e
      simp [entsSize] at hs
      omega
  | succ k ih =>
    intro stack hs
    match stack with
    | [] => simp [stackWalkE, walkP]
    | .file n :: rest =>
      simp only [stackWalkE, walkP]
      exact ih rest (by simp only [entsSize, entSize] at hs; omega)
    | .dir n cs :: rest =>
      have hb : entsSize ((if rec then dirsOnly cs else []).reverse ++ rest) ≤ k := by
        have hf := entsSize_filter_le Entry.isDir cs
        simp only [entsSize, entSize] at hs
        simp only [entsSize_append, entsSize_reverse, dirsOnly]
        cases rec <;> simp [entsSize] <;> omega
      rw [stackWalkE, walkP]
      rw [scanEntries_catchable pred rec h cs]
      dsimp only
      rw [ih _ hb]

theorem iter_files_catchable (pred : String → Except PyErr Bool) (rec : Bool)
    (h : ∀ n ex, pred n = .error ex → catchable ex = true) (roots : List Entry) :
    iter_files pred rec true roots = (iterP (predOk pred) rec roots, none) := by
  induction roots with
  | nil => simp [iter_files, iterP]
  | cons e rest ih =>
    cases e with
    | file n =>
      cases hp : pred n with
      | ok b =>
        cases b <;> simp only [iter_files, hp, ih] <;> simp [iterP, predOk, hp]
      | error ex =>
        have hc := h n ex hp
        simp only [iter_files, hp, hc, Bool.true_and, if_pos rfl, ih]
        simp [iterP, predOk, hp]
    | dir n cs =>
      rw [iter_files,
        stackWalkE_catchable pred rec h (entsSize [Entry.dir n cs]) [Entry.dir n cs] le_rfl]
      simp only [ih, iterP]

theorem predOk_okPred (pred : String → Bool) : predOk (okPred pred) = pred :=
  funext fun _ => rfl

theorem iterFilesP_eq_iterP (pred : String → Bool) (rec : Bool) (roots : List Entry) :
    iterFilesP pred rec roots = iterP pred rec roots := by
  unfold iterFilesP
  rw [iter_files_catchable (okPred pred) rec (fun n ex h => by simp [okPred] at h) roots,
    predOk_okPred]

/-- C1 counterexample: with the default continue-on-error mode, a predicate
raising an exception that is not an OSError or PermissionError (for example
a ValueError) on the first file of a directory is NOT caught: nothing more
is yielded (the later matching file "b" is lost) and the exception
propagates to the consumer. -/
theorem claim_C1_counterexample :
    iter_files
      (fun n => if n = "a" then .error .otherError else .ok true) true true
      [Entry.dir "r" [Entry.file "a", Entry.file "b"]]
      = ([], some PyErr.otherError) := by
  simp +decide [iter_files, stackWalkE, scanEntries, catchable]

/-- C1 (amended): in the default continue-on-error mode, a predicate
exception is caught and the entry skipped, with traversal continuing and
no exception reaching the consumer, exactly when every exception the
predicate raises is an OSError or PermissionError; the run then yields the
same matches as the pure traversal that treats raising entries as
non-matches. -/
theorem claim_C1_predicate_errors_amended (pred : String → Except PyErr Bool)
    (rec : Bool) (roots : List Entry)
    (h : ∀ n ex, pred n = .error ex → catchable ex = true) :
    iter_files pred rec true roots = (iterFilesP (predOk pred) rec roots, none) := by
  rw [iter_files_catchable pred rec h roots, iterFilesP_eq_iterP]

/-- Witness for C1 (amended): a predicate raising PermissionError on file
"a" is caught, the entry is skipped, and the traversal still yields "b". -/
theorem claim_C1_predicate_errors_amended_witness :
    iter_files
      (fun n => if n = "a" then .error .permissionError else .ok true) true true
      [Entry.dir "r" [Entry.file "a", Entry.file "b"]]
      = (["b"], none) := by
  rw [claim_C1_predicate_errors_amended
    (fun n => if n = "a" then .error .permissionError else .ok true) true
    [Entry.dir "r" [Entry.file "a", Entry.file "b"]]
    (fun n ex hh => by
      by_cases hn : n = "a"
      · simp [hn] at hh
        cases hh
        rfl
      · simp [hn] at hh)]
  rw [iterFilesP_eq_iterP]
  simp +decide [iterP, walkP, filesOf, dirsOnly, predOk, Entry.isDir]

theorem dirsOnly_eq_nil_of_files {l : List Entry} (h : ∀ e ∈ l, e.isFile = true) :
    dirsOnly l = [] := by
  unfold dirsOnly
  rw [List.filter_eq_nil]
  intro e he
  have := h e he
  cases e <;> simp_all [Entry.isFile, Entry.isDir]

theorem walkP_flat (pred : String → Bool) :
    ∀ (k : Nat) (stack : List Entry), entsSize stack ≤ k →
      (∀ e ∈ stack, ∀ e' ∈ e.children, e'.isFile = true) →
      walkP pred true stack = (stack.map fun e => filesOf pred e.children).join := by
  intro k
  induction k with
  | zero =>
    intro stack hs h
    cases stack with
    | nil => simp [walkP]
    | cons e rest =>
      exfalso
      have := entSize_pos e
      simp [entsSize] at hs
      omega
  | succ k ih =>
    intro stack hs h
    match stack with
    | [] => simp [walkP]
    | .file n :: rest =>
      rw [walkP]
      rw [ih rest (by simp only [entsSize, entSize] at hs; omega)
        (fun e he => h e (List.mem_cons_of_mem _ he))]
      simp [Entry.children, filesOf]
    | .dir n cs :: rest =>
      have hcs : ∀ e' ∈ cs, e'.isFile = true := by
        have := h (Entry.dir n cs) (List.mem_cons_self _ _)
        simpa [Entry.children] using this
      have hnil : dirsOnly cs = [] := dirsOnly_eq_nil_of_files hcs
      rw [walkP]
      simp only [hnil, ite_self, List.reverse_nil, List.nil_append]
      rw [ih rest (by simp only [entsSize, entSize] at hs; omega)
        (fun e he => h e (List.mem_cons_of_mem _ he))]
      simp [Entry.children]

/-- Yields of the traversal of one directory root whose subdirectories are
all flat (contain only files): direct file matches first, then the matches
of the discovered subdirectories with the most recently discovered
subdirectory processed first (explicit stack, LIFO). -/
theorem iterFilesP_root_flat (pred : String → Bool) (rn : String) (cs : List Entry)
    (h : ∀ e ∈ cs, ∀ e' ∈ e.children, e'.isFile = true) :
    iterFilesP pred true [Entry.dir rn cs]
      = filesOf pred cs
        ++ ((dirsOnly cs).reverse.map fun e => filesOf pred e.children).join := by
  rw [iterFilesP_eq_iterP]
  rw [iterP, iterP, List.append_nil, walkP]
  simp only [eq_self_iff_true, if_true, List.append_nil]
  rw [walkP_flat pred (entsSize (dirsOnly cs).reverse) (dirsOnly cs).reverse le_rfl ?_]
  intro e he e' he'
  have hmem : e ∈ cs := by
    have := List.mem_reverse.mp he
    exact List.mem_of_mem_filter this
  exact h e hmem e' he'

/-- C5 counterexample: the root directory lists d1 (containing file a)
before d2 (containing file b), but the stack pops the most recently
discovered directory first, so the match from d2 is yielded before the
match from d1 — subdirectories are NOT processed in discovery order. -/
theorem claim_C5_counterexample :
    iterFilesP (fun _ => true) true
      [Entry.dir "r" [Entry.dir "d1" [Entry.file "a"], Entry.dir "d2" [Entry.file "b"]]]
      = ["b", "a"] := by
  rw [iterFilesP_eq_iterP]
  simp +decide [iterP, walkP, filesOf, dirsOnly, Entry.isDir]

/-- Decomposition of the stack walk: processing a stack s1 ++ s2 yields
everything produced from s1 before anything produced from s2.  This is
the subtree-contiguity property of the explicit stack: whatever a popped
directory pushes lands above the remainder of the stack, so its whole
subtree is emitted before the remainder is touched. -/
theorem walkP_append (pred : String → Bool) (rec : Bool) :
    ∀ (k : Nat) (s1 s2 : List Entry), entsSize s1 ≤ k →
      walkP pred rec (s1 ++ s2) = walkP pred rec s1 ++ walkP pred rec s2 := by
  intro k
  induction k with
  | zero =>
    intro s1 s2 hs
    cases s1 with
    | nil =>
      have h0 : walkP pred rec [] = [] := by rw [walkP]
      rw [List.nil_append, h0, List.nil_append]
    | cons e rest =>
      exfalso
      have := entSize_pos e
      simp [entsSize] at hs
      omega
  | succ k ih =>
    intro s1 s2 hs
    match s1 with
    | [] =>
      have h0 : walkP pred rec [] = [] := by rw [walkP]
      rw [List.nil_append, h0, List.nil_append]
    | .file n :: rest =>
      rw [List.cons_append, walkP, walkP]
      exact ih rest s2 (by simp only [entsSize, entSize] at hs; omega)
    | .dir n cs :: rest =>
      have hb : entsSize ((if rec then dirsOnly cs else []).reverse ++ rest) ≤ k := by
        have hf := entsSize_filter_le Entry.isDir cs
        simp only [entsSize, entSize] at hs
        simp only [entsSize_append, entsSize_reverse, dirsOnly]
        cases rec <;> simp [entsSize] <;> omega
      rw [List.cons_append, walkP, walkP, ← List.append_assoc,
        ih ((if rec then dirsOnly cs else []).reverse ++ rest) s2 hb,
        List.append_assoc]

/-- The stack walk of any stack is the concatenation of the walks of its
entries taken one at a time, top of stack first. -/
theorem walkP_eq_flatten (pred : String → Bool) (rec : Bool) :
    ∀ s : List Entry, walkP pred rec s = (s.map fun e => walkP pred rec [e]).flatten := by
  intro s
  induction s with
  | nil => rw [walkP]; rfl
  | cons e rest ih =>
    rw [show e :: rest = [e] ++ rest from rfl,
      walkP_append pred rec (entsSize [e]) [e] rest le_rfl, ih]
    rfl

/-- C5 (amended): for every directory visited during a recursive traversal
— a directory at the top of the stack above any pending remainder rest,
with arbitrary contents cs of arbitrary depth — all matching regular files
directly inside it are yielded first, then the complete subtree
contribution of each subdirectory discovered at that level, with the most
recently discovered subdirectory processed first (reverse of listing
order), and only then the pending remainder of the stack; in particular
the whole traversal of a directory root has this shape. -/
theorem claim_C5_ordering_amended (pred : String → Bool) (n : String)
    (cs rest : List Entry) :
    walkP pred true (Entry.dir n cs :: rest)
        = filesOf pred cs
          ++ ((dirsOnly cs).reverse.map fun d => walkP pred true [d]).flatten
          ++ walkP pred true rest
      ∧
    iterFilesP pred true [Entry.dir n cs]
        = filesOf pred cs
          ++ ((dirsOnly cs).reverse.map fun d => walkP pred true [d]).flatten := by
  have hdir : ∀ r : List Entry,
      walkP pred true (Entry.dir n cs :: r)
        = filesOf pred cs
          ++ ((dirsOnly cs).reverse.map fun d => walkP pred true [d]).flatten
          ++ walkP pred true r := by
    intro r
    rw [walkP]
    simp only [eq_self_iff_true, if_true]
    rw [walkP_append pred true (entsSize (dirsOnly cs).reverse) (dirsOnly cs).reverse r
        le_rfl,
      walkP_eq_flatten pred true (dirsOnly cs).reverse, List.append_assoc]
  constructor
  · exact hdir rest
  · rw [iterFilesP_eq_iterP, iterP, iterP, List.append_nil, hdir []]
    have h0 : walkP pred true [] = [] := by rw [walkP]
    rw [h0, List.append_nil]

theorem filesOf_true_length (l : List Entry) :
    (filesOf (fun _ => true) l).length = (l.filter Entry.isFile).length := by
  induction l with
  | nil => rfl
  | cons e es ih =>
    cases e <;> simp [filesOf, List.filter_cons, Entry.isFile, ih] <;>
      simpa [filesOf] using ih

/-- C4: for a directory tree with N regular files at depth 0 under the
root and M regular files at depth 1 (no deeper entries) and the
always-true predicate, the recursive traversal yields exactly N+M matches
and the non-recursive traversal yields exactly N. -/
theorem claim_C4_traversal_counts (rn : String) (cs : List Entry)
    (h : ∀ e ∈ cs, ∀ e' ∈ e.children, e'.isFile = true) :
    (iterFilesP (fun _ => true) true [Entry.dir rn cs]).length
        = (cs.filter Entry.isFile).length
          + ((dirsOnly cs).map fun e => (e.children.filter Entry.isFile).length).sum
      ∧
    (iterFilesP (fun _ => true) false [Entry.dir rn cs]).length
        = (cs.filter Entry.isFile).length := by
  constructor
  · rw [iterFilesP_root_flat (fun _ => true) rn cs h]
    rw [List.length_append, filesOf_true_length, List.length_join]
    congr 1
    rw [List.map_map]
    have hfun : ((fun l => List.length l) ∘ fun e => filesOf (fun _ => true) e.children)
        = fun (e : Entry) => (e.children.filter Entry.isFile).length :=
      funext fun e => filesOf_true_length e.children
    rw [hfun, List.map_reverse, List.sum_reverse]
  · rw [iterFilesP_eq_iterP]
    rw [iterP, iterP, List.append_nil, walkP]
    simp only [Bool.false_eq_true, if_false, List.reverse_nil, List.nil_append]
    have h0 : walkP (fun (_ : String) => true) false [] = [] := by rw [walkP]
    rw [h0, List.append_nil, filesOf_true_length]

/-- Witness for C4 on a tree with one depth-0 file and two depth-1 files. -/
theorem claim_C4_traversal_counts_witness :
    (iterFilesP (fun _ => true) true
        [Entry.dir "r" [Entry.file "x", Entry.dir "d" [Entry.file "a", Entry.file "b"]]]).length
      = 1 + 2
    ∧
    (iterFilesP (fun _ => true) false
        [Entry.dir "r" [Entry.file "x", Entry.dir "d" [Entry.file "a", Entry.file "b"]]]).length
      = 1 := by
  have h := claim_C4_traversal_counts "r"
    [Entry.file "x", Entry.dir "d" [Entry.file "a", Entry.file "b"]] (by decide)
  refine ⟨?_, ?_⟩
  · rw [h.1]; decide
  · rw [h.2]; decide

/-! ## Fluent query builder state (PQuery, claim C2)

The builder predicates take a path object which may name a regular file or
something else; Entry models that domain, and the default predicate
(lambda p: p.is_file()) is Entry.isFile.  The mutable builder state holds
the working fields together with the constructor-remembered parameters. -/

/-- The default predicate installed when no where-condition was declared. -/
def isFilePred : Entry → Bool := Entry.isFile

structure PQueryState where
  start_paths : List String
  is_recursive : Bool
  query_func : List (Entry → Bool)
  distinct : Bool
  init_from : Option String
  init_recursive : Option Bool
  init_where : Option (Entry → Bool)

/-- Model of PQuery.__init__: empty working state plus the remembered
constructor parameters. -/
def initPQuery (from_ : Option String) (recursive : Option Bool)
    (where_ : Option (Entry → Bool)) : PQueryState :=
  { start_paths := [], is_recursive := true, query_func := [], distinct := false
    init_from := from_, init_recursive := recursive, init_where := where_ }

/-- Model of the default application at the top of PQuery._iter_files
(lines 377-389): the defaults are assigned back into the instance fields
(self.start_paths, self.is_recursive, self._query_func are mutated), so
the state after a terminal call is this updated state. -/
def applyDefaults (q : PQueryState) : PQueryState :=
  { q with
    start_paths := if q.start_paths.isEmpty then [q.init_from.getD "."] else q.start_paths
    is_recursive := q.init_recursive.getD true
    query_func :=
      if q.query_func.isEmpty then
        [match q.init_where with
          | some w => w
          | none => isFilePred]
      else q.query_func }

/-- Model of PQuery.where for a single valid condition: appends to the
predicate list. -/
def whereAdd (q : PQueryState) (f : Entry → Bool) : PQueryState :=
  { q with query_func := q.query_func ++ [f] }

/-- Model of PQuery._matches_query: True when the predicate list is empty,
else the conjunction of all predicates. -/
def matches_query (q : PQueryState) (p : Entry) : Bool :=
  if q.query_func.isEmpty then true
  else q.query_func.all fun f => f p

/-- C2 counterexample: start from a default-constructed builder, run a
terminal method (which applies defaults, writing them into the declared
configuration), then add the predicate P = (fun _ => true).  The second
terminal execution evaluates the default is-a-regular-file predicate ANDed
with P: on a directory path the stored configuration rejects the entry
although P alone accepts it, and the predicate list has length 2, not 1 —
so a second execution does not use only P. -/
theorem claim_C2_counterexample :
    matches_query
        (applyDefaults (whereAdd (applyDefaults (initPQuery none none none))
          (fun _ => true)))
        (Entry.dir "d" []) = false
      ∧ (fun (_ : Entry) => true) (Entry.dir "d" []) = true
      ∧ (applyDefaults (whereAdd (applyDefaults (initPQuery none none none))
          (fun _ => true))).query_func.length = 2 :=
  ⟨rfl, rfl, rfl⟩

/-- C2 (amended): running a terminal method writes the derived defaults
back into the declared configuration: for every builder with no declared
predicates and no constructor where-condition, running a terminal method
and then adding predicate P leaves the next execution with the predicate
list [is_file default, P] — the default is not re-derived as absent, it
was baked into the configuration by the first execution. -/
theorem claim_C2_defaults_mutate_amended (q : PQueryState) (P : Entry → Bool)
    (h1 : q.query_func.isEmpty = true) (h2 : q.init_where = none) :
    (applyDefaults (whereAdd (applyDefaults q) P)).query_func = [isFilePred, P] := by
  simp [applyDefaults, whereAdd, h1, h2]

/-- Witness for C2 (amended) on the default-constructed builder. -/
theorem claim_C2_defaults_mutate_amended_witness :
    (applyDefaults (whereAdd (applyDefaults (initPQuery none none none))
        (fun _ => true))).query_func = [isFilePred, fun _ => true] :=
  claim_C2_defaults_mutate_amended (initPQuery none none none) (fun _ => true) rfl rfl

/-! ## Pagination (PQuery.paginate, claim C7)

paginate creates the files() iterator once and repeatedly slices the next
page_size elements off it, stopping at the first empty page; on the list
of matches the shared iterator makes each page the next chunk of the
remaining list, so the traversal is consumed exactly once by
construction. -/

/-- Model of PQuery.paginate applied to the sequence of matches produced
by files(): chunks of page_size, final chunk possibly shorter, no page
after the first empty slice. -/
def paginate {α : Type} (page_size : Nat) (l : List α) : List (List α) :=
  if page_size = 0 then []
  else if l.isEmpty then []
  else l.take page_size :: paginate page_size (l.drop page_size)
termination_by l.length
decreasing_by
  simp only [List.length_drop]
  rcases l with _ | ⟨x, xs⟩
  · simp at *
  · simp only [List.length_cons]
    omega

theorem paginate_nil {α : Type} (p : Nat) : paginate p ([] : List α) = [] := by
  rw [paginate]
  simp

theorem paginate_eq_nil_iff {α : Type} (p : Nat) (hp : 0 < p) (l : List α) :
    paginate p l = [] ↔ l = [] := by
  rcases l with _ | ⟨x, xs⟩
  · simp [paginate_nil]
  · rw [paginate]
    have h0 : ¬ p = 0 := by omega
    simp [h0]

theorem paginate_join {α : Type} (p : Nat) (hp : 0 < p) :
    ∀ (n : Nat) (l : List α), l.length ≤ n → (paginate p l).join = l := by
  intro n
  induction n with
  | zero =>
    intro l hl
    have : l = [] := List.eq_nil_of_length_eq_zero (by omega)
    subst this
    rw [paginate_nil]
    rfl
  | succ n ih =>
    intro l hl
    rw [paginate]
    split_ifs with h0 he
    · omega
    · rw [List.isEmpty_iff.mp he]
      rfl
    · show l.take p ++ (paginate p (l.drop p)).join = l
      rw [ih (l.drop p) (by simp only [List.length_drop]; omega)]
      exact List.take_append_drop p l

theorem paginate_mem_length {α : Type} (p : Nat) (hp : 0 < p) :
    ∀ (n : Nat) (l : List α), l.length ≤ n →
      ∀ pg ∈ paginate p l, 0 < pg.length ∧ pg.length ≤ p := by
  intro n
  induction n with
  | zero =>
    intro l hl pg hpg
    have : l = [] := List.eq_nil_of_length_eq_zero (by omega)
    subst this
    rw [paginate_nil] at hpg
    simp at hpg
  | succ n ih =>
    intro l hl pg hpg
    rw [paginate] at hpg
    split_ifs at hpg with h0 he
    · simp at hpg
    · simp at hpg
    · rcases List.mem_cons.mp hpg with h | h
      · subst h
        have hl' : l ≠ [] := fun hn => by simp [hn] at he
        have hlen : 0 < l.length := List.length_pos.mpr hl'
        constructor
        · simp only [List.length_take]
          omega
        · simp only [List.length_take]
          omega
      · exact ih (l.drop p) (by simp only [List.length_drop]; omega) pg h

theorem paginate_dropLast_length {α : Type} (p : Nat) (hp : 0 < p) :
    ∀ (n : Nat) (l : List α), l.length ≤ n →
      ∀ pg ∈ (paginate p l).dropLast, pg.length = p := by
  intro n
  induction n with
  | zero =>
    intro l hl pg hpg
    have : l = [] := List.eq_nil_of_length_eq_zero (by omega)
    subst this
    rw [paginate_nil] at hpg
    simp at hpg
  | succ n ih =>
    intro l hl pg hpg
    rw [paginate] at hpg
    split_ifs at hpg with h0 he
    · simp at hpg
    · simp at hpg
    · cases hrest : paginate p (l.drop p) with
      | nil =>
        rw [hrest] at hpg
        simp at hpg
      | cons y ys =>
        rw [hrest] at hpg
        rw [List.dropLast_cons₂] at hpg
        rcases List.mem_cons.mp hpg with h | h
        · subst h
          have hdrop : l.drop p ≠ [] := by
            intro hn
            rw [hn, paginate_nil] at hrest
            exact absurd hrest (by simp)
          have : p < l.length := by
            by_contra hcon
            push_neg at hcon
            apply hdrop
            rw [List.drop_eq_nil_iff_le]
            omega
          simp only [List.length_take]
          omega
        · rw [← hrest] at h
          exact ih (l.drop p) (by simp only [List.length_drop]; omega) pg h

/-- C7: for every positive page size p and every sequence of matches from
files(), concatenating the pages of paginate(p) reproduces exactly the
files() sequence (each match delivered exactly once, in order: the single
shared iterator is consumed exactly once across all pages), every page is
nonempty with at most p elements, and every page except possibly the last
has exactly p elements. -/
theorem claim_C7_pagination {α : Type} (p : Nat) (l : List α) (hp : 0 < p) :
    (paginate p l).join = l ∧
    (∀ pg ∈ (paginate p l).dropLast, pg.length = p) ∧
    (∀ pg ∈ paginate p l, 0 < pg.length ∧ pg.length ≤ p) :=
  ⟨paginate_join p hp l.length l le_rfl,
   paginate_dropLast_length p hp l.length l le_rfl,
   paginate_mem_length p hp l.length l le_rfl⟩

/-- Witness for C7 with page size 2 over five matches. -/
theorem claim_C7_pagination_witness :
    0 < 2 ∧
    ((paginate 2 ["a", "b", "c", "d", "e"]).join = ["a", "b", "c", "d", "e"] ∧
    (∀ pg ∈ (paginate 2 ["a", "b", "c", "d", "e"]).dropLast, pg.length = 2) ∧
    (∀ pg ∈ paginate 2 ["a", "b", "c", "d", "e"], 0 < pg.length ∧ pg.length ≤ 2)) :=
  ⟨by norm_num, claim_C7_pagination 2 ["a", "b", "c", "d", "e"] (by norm_num)⟩

/-! ## Bounded top-k selection and full sort (PQuery.take / PQuery.order_by,
claim C6)

Both terminals consume the same matches from _distinct_iter_files, so they
are modelled over the same list of matches.  Python comparison values can
be arbitrary comparable keys; a linear order models them.

heapq.nlargest keeps the limit largest elements seen so far in a bounded
min-heap, breaking key ties in favour of earlier elements (it decorates
each element with its arrival index), and returns them sorted in
descending order; the bounded state is represented here as the
descending-sorted list of the current top limit decorated elements.
Python sorted with reverse=True is the stable descending sort: equal keys
keep their original order, which is exactly the strict comparison on
(key, arrival index) pairs used below. -/

/-- Strict before-relation of the descending (reverse=True) order on
index-decorated elements: larger key first, ties by earlier arrival. -/
def nlBefore {α β : Type} [LinearOrder β] (key : α → β) (a b : Nat × α) : Bool :=
  decide (key b.2 < key a.2 ∨ (key a.2 = key b.2 ∧ a.1 < b.1))

/-- Strict before-relation of the ascending order on index-decorated
elements: smaller key first, ties by earlier arrival. -/
def nsBefore {α β : Type} [LinearOrder β] (key : α → β) (a b : Nat × α) : Bool :=
  decide (key a.2 < key b.2 ∨ (key a.2 = key b.2 ∧ a.1 < b.1))

/-- Ordered insertion with respect to a before-relation. -/
def insertD {α : Type} (bf : Nat × α → Nat × α → Bool) (x : Nat × α) :
    List (Nat × α) → List (Nat × α)
  | [] => [x]
  | y :: ys => if bf x y then x :: y :: ys else y :: insertD bf x ys

/-- Sort by repeated ordered insertion (the model of Python stable sorted
under a strict total before-relation on decorated elements). -/
def sortD {α : Type} (bf : Nat × α → Nat × α → Bool) (l : List (Nat × α)) :
    List (Nat × α) :=
  l.foldl (fun s x => insertD bf x s) []

/-- Model of heapq.nlargest(limit, iterable, key): fold over the decorated
elements keeping only the limit best so far, result in descending order. -/
def nlargest {α β : Type} [LinearOrder β] (limit : Nat) (key : α → β)
    (l : List α) : List α :=
  (l.enum.foldl (fun s x => (insertD (nlBefore key) x s).take limit) []).map Prod.snd

/-- Model of heapq.nsmallest(limit, iterable, key). -/
def nsmallest {α β : Type} [LinearOrder β] (limit : Nat) (key : α → β)
    (l : List α) : List α :=
  (l.enum.foldl (fun s x => (insertD (nsBefore key) x s).take limit) []).map Prod.snd

/-- Model of PQuery.take over the matches: without a key the first limit
matches in traversal order, with a key the bounded-heap top (or bottom)
limit selection. -/
def take {α β : Type} [LinearOrder β] (limit : Nat) (key : Option (α → β))
    (reverse : Bool) (l : List α) : List α :=
  match key with
  | none => l.take limit
  | some k => if reverse then nlargest limit k l else nsmallest limit k l

/-- Model of PQuery.order_by with a key over the matches: the full stable
sort (sorted(files, key=key, reverse=not ascending)); without a key the
source sorts the paths themselves, which no claim here needs. -/
def order_by {α β : Type} [LinearOrder β] (key : α → β) (ascending : Bool)
    (l : List α) : List α :=
  (sortD (if ascending then nsBefore key else nlBefore key) l.enum).map Prod.snd

theorem insertD_take {α : Type} (bf : Nat × α → Nat × α → Bool) (x : Nat × α) :
    ∀ (l : List (Nat × α)) (k : Nat),
      (insertD bf x l).take k = (insertD bf x (l.take k)).take k := by
  intro l
  induction l with
  | nil => intro k; simp
  | cons y ys ih =>
    intro k
    cases k with
    | zero => simp
    | succ m =>
      by_cases hb : bf x y = true
      · rw [List.take_succ_cons]
        simp only [insertD, hb, if_true]
        rw [List.take_succ_cons, List.take_succ_cons]
        congr 1
        cases m with
        | zero => simp
        | succ j =>
          rw [List.take_succ_cons, List.take_succ_cons]
          congr 1
          rw [List.take_take]
          congr 1
          omega
      · rw [List.take_succ_cons]
        simp only [insertD]
        rw [if_neg hb, if_neg hb]
        rw [List.take_succ_cons, List.take_succ_cons]
        congr 1
        exact ih m

theorem sortD_concat {α : Type} (bf : Nat × α → Nat × α → Bool)
    (l : List (Nat × α)) (x : Nat × α) :
    sortD bf (l ++ [x]) = insertD bf x (sortD bf l) := by
  unfold sortD
  rw [List.foldl_append]
  rfl

theorem foldl_bounded_eq_sortD_take {α : Type} (bf : Nat × α → Nat × α → Bool)
    (k : Nat) :
    ∀ l : List (Nat × α),
      l.foldl (fun s x => (insertD bf x s).take k) [] = (sortD bf l).take k := by
  intro l
  induction l using List.reverseRecOn with
  | nil => simp [sortD]
  | append_singleton l x ih =>
    rw [List.foldl_append, sortD_concat]
    simp only [List.foldl_cons, List.foldl_nil]
    rw [ih]
    exact (insertD_take bf x (sortD bf l) k).symm

theorem nlargest_eq {α β : Type} [LinearOrder β] (k : Nat) (key : α → β)
    (l : List α) :
    nlargest k key l = ((sortD (nlBefore key) l.enum).take k).map Prod.snd := by
  unfold nlargest
  rw [foldl_bounded_eq_sortD_take]

theorem order_by_take {α β : Type} [LinearOrder β] (key : α → β) (k : Nat)
    (l : List α) :
    (order_by key false l).take k
      = ((sortD (nlBefore key) l.enum).take k).map Prod.snd := by
  unfold order_by
  simp only [Bool.false_eq_true, if_false]
  rw [← List.map_take]

/-- C6: for every list of matches, every key function into a linear order,
and every k not exceeding the number of matches, the bounded-heap terminal
take(k, key, reverse=True) returns the same set of paths as the first k
elements of the full sort order_by(key, ascending=False) — ties included,
since both selections break key ties by arrival order.  (The two lists are
in fact equal; the claim's set equality follows.) -/
theorem claim_C6_take_topk {α β : Type} [DecidableEq α] [LinearOrder β]
    (l : List α) (key : α → β) (k : Nat) (hk : k ≤ l.length) :
    (take k (some key) true l).toFinset
      = ((order_by key false l).take k).toFinset := by
  have h : take k (some key) true l = (order_by key false l).take k := by
    show nlargest k key l = _
    rw [nlargest_eq, order_by_take]
  rw [h]

/-- Witness for C6 with three matches whose keys all tie and k = 2. -/
theorem claim_C6_take_topk_witness :
    2 ≤ 3 ∧
    (take 2 (some fun _ => (0 : Int)) true ["p", "q", "r"]).toFinset
      = ((order_by (fun (_ : String) => (0 : Int)) false ["p", "q", "r"]).take 2).toFinset :=
  ⟨by norm_num,
   claim_C6_take_topk ["p", "q", "r"] (fun _ => (0 : Int)) 2 (by norm_num)⟩

end TPath
